import Mathlib

/-!
# Verification of the `deltagolomb` codec (deltagolomb.go)

Shallow embedding of the order-zero exponential-Golomb encoder, the
bit-at-a-time decoder state machine, and the delta-coding wrappers from
`src/deltagolomb.go`, together with proofs and refutations of the spec's
claims about them.

Machine integers are modelled as `Nat` (for the `uint64` accumulator, with
explicit `% 2 ^ 64` where Go's shifts can overflow the word) and `Int` (for
Go's `int` values; overflow of `int` is out of the documented contract of
the code, which restricts magnitudes to at most `2 ^ 31 - 2`, so `int` is
modelled unbounded).  The byte sink and byte source are modelled as `List
Nat` of byte values, read and written in order.
-/

namespace DeltaGolomb

/-- Word width of the encoder accumulator (`egWordBits` in the source). -/
def egWordBits : Nat := 64

/-- Decoder parse state `COUNTING_ZEROS` (iota value 0). -/
def COUNTING_ZEROS : Nat := 0

/-- Decoder parse state `SHIFTING_BITS` (iota value 1). -/
def SHIFTING_BITS : Nat := 1

/-- Decoder parse state `READING_SIGN` (iota value 2). -/
def READING_SIGN : Nat := 2

/-- Encoder state: the `uint64` accumulator word `data`, the count
`bitsleft` of unused (low) bit positions in it, and the bytes written to
the sink so far (the `out`/`outbuf` pair of the Go struct, with the sink
modelled as the list of bytes written). -/
structure ExpGolombEncoder where
  data : Nat
  bitsleft : Nat
  out : List Nat
deriving DecidableEq, Repr

/-- `NewExpGolombEncoder`: accumulator 0, all 64 bits unused, nothing
written yet. -/
def NewExpGolombEncoder : ExpGolombEncoder := ⟨0, egWordBits, []⟩

/-- The eight bytes of a `uint64`, most significant first
(`binary.BigEndian.PutUint64`). -/
def wordBytes (x : Nat) : List Nat :=
  [x >>> 56 % 256, x >>> 48 % 256, x >>> 40 % 256, x >>> 32 % 256,
   x >>> 24 % 256, x >>> 16 % 256, x >>> 8 % 256, x % 256]

/-- `emitBits`: write the full accumulator word big-endian and reset it. -/
def emitBits (s : ExpGolombEncoder) : ExpGolombEncoder :=
  ⟨0, egWordBits, s.out ++ wordBytes s.data⟩

/-- `emitPartialBits`: write only the `((egWordBits - bitsleft) + 7) / 8`
whole bytes actually holding committed bits, then reset the word. -/
def emitPartialBits (s : ExpGolombEncoder) : ExpGolombEncoder :=
  let nbytes := ((egWordBits - s.bitsleft) + 7) / 8
  ⟨0, egWordBits, s.out ++ (wordBytes s.data).take nbytes⟩

/-- `addBits`: append the low `nbits` bits of `bits` to the stream.  If
they fit in the current word the word is updated in place; otherwise the
word is filled, emitted, and the remainder placed at the top of a fresh
word.  Go shifts of a `uint64` wrap to the word width, hence the explicit
`% 2 ^ 64`; a Go shift count `≥ 64` yields 0, which `% 2 ^ 64` also
reproduces. -/
def addBits (s : ExpGolombEncoder) (bits nbits : Nat) : ExpGolombEncoder :=
  if nbits < s.bitsleft then
    ⟨s.data ||| (bits <<< (s.bitsleft - nbits)) % 2 ^ 64, s.bitsleft - nbits, s.out⟩
  else
    let s1 := emitBits ⟨s.data ||| bits >>> (nbits - s.bitsleft), s.bitsleft, s.out⟩
    let nbits1 := nbits - s.bitsleft
    ⟨(bits <<< (egWordBits - nbits1)) % 2 ^ 64, egWordBits - nbits1, s1.out⟩

/-- The `for ; nzeros >= egWordBits; nzeros -= egWordBits { s.emitBits() }`
loop of `addZeroBits`: emit whole zero words while at least a word of
zeros remains; returns the state and the final loop variable. -/
def zeroWordsLoop (nzeros : Nat) (s : ExpGolombEncoder) : ExpGolombEncoder × Nat :=
  if nzeros ≥ egWordBits then zeroWordsLoop (nzeros - egWordBits) (emitBits s)
  else (s, nzeros)
termination_by nzeros
decreasing_by simp [egWordBits] at *; omega

/-- `addZeroBits`: append `nzeros` zero bits, bulk-counting whole words. -/
def addZeroBits (s : ExpGolombEncoder) (nzeros : Nat) : ExpGolombEncoder :=
  if nzeros < s.bitsleft then
    ⟨s.data, s.bitsleft - nzeros, s.out⟩
  else
    let s1 := emitBits s
    let p := zeroWordsLoop (nzeros - s.bitsleft) s1
    ⟨p.1.data, p.1.bitsleft - p.2, p.1.out⟩

/-- `bitLen`: the source's branch-free-ish bit-length computation.  Note
the first test is the strict `x > 1 <<< 31` of the source, which is why
the function (and hence the encoder) is only correct for magnitudes up to
`2 ^ 31 - 2`. -/
def bitLen (x : Nat) : Nat :=
  let x1 := if x > 1 <<< 31 then x >>> 32 else x
  let n1 := if x > 1 <<< 31 then 32 else 0
  let x2 := if x1 ≥ 0x8000 then x1 >>> 16 else x1
  let n2 := if x1 ≥ 0x8000 then n1 + 16 else n1
  let x3 := if x2 ≥ 0x80 then x2 >>> 8 else x2
  let n3 := if x2 ≥ 0x80 then n2 + 8 else n2
  let x4 := if x3 ≥ 0x8 then x3 >>> 4 else x3
  let n4 := if x3 ≥ 0x8 then n3 + 4 else n3
  let x5 := if x4 ≥ 0x2 then x4 >>> 2 else x4
  let n5 := if x4 ≥ 0x2 then n4 + 2 else n4
  if x5 ≥ 0x1 then n5 + 1 else n5

/-- The general (non-tabulated) encoding path of `add`: the code below the
`switch` — extract the sign, add one to the magnitude, emit the unary
zero prefix, then the delimiter, magnitude and sign bits. -/
def addGeneral (s : ExpGolombEncoder) (item : Int) : ExpGolombEncoder :=
  let sign : Nat := if item < 0 then 1 else 0
  let uitem : Nat := item.natAbs + 1
  let nbits : Nat := bitLen uitem - 1
  let s1 := addZeroBits s nbits
  addBits s1 (uitem <<< 1 ||| sign) (nbits + 2)

/-- `add`: encode one signed integer, with the source's tabulated fast
path for `0, 1, -1, 2, -2` (a Go `switch` on `item`). -/
def add (s : ExpGolombEncoder) (item : Int) : ExpGolombEncoder :=
  if item = 0 then addBits s 1 1
  else if item = 1 then addBits s 0x4 4
  else if item = -1 then addBits s 0x5 4
  else if item = 2 then addBits s 0x6 4
  else if item = -2 then addBits s 0x7 4
  else addGeneral s item

/-- `Write`: encode a slice of integers in order. -/
def Write (s : ExpGolombEncoder) (ilist : List Int) : ExpGolombEncoder :=
  ilist.foldl add s

/-- `Close`: flush a partial word if any bits are pending.  The sink's
`Flush()` is a no-op in this model of the sink. -/
def Close (s : ExpGolombEncoder) : ExpGolombEncoder :=
  if s.bitsleft ≠ egWordBits then emitPartialBits s else s

/-! ### Bit-level view of the encoder stream -/

/-- The low `w` bits of `x`, most significant first, as 0/1 values.  This
is the order in which the encoder packs bits into its accumulator word
and in which the decoder consumes the bits of a byte. -/
def natBitsBE : Nat → Nat → List Nat
  | 0, _ => []
  | w + 1, x => (x >>> w &&& 1) :: natBitsBE w x

/-- The bits of a byte list, in stream order. -/
def bytesBits : List Nat → List Nat
  | [] => []
  | b :: rest => natBitsBE 8 b ++ bytesBits rest

/-- All bits committed to the encoder so far: the bits of the emitted
bytes followed by the `64 - bitsleft` bits packed left-justified in the
accumulator word. -/
def streamBits (s : ExpGolombEncoder) : List Nat :=
  bytesBits s.out ++ natBitsBE (egWordBits - s.bitsleft) (s.data >>> s.bitsleft)

/-- The encoder's documented state invariant: between 1 and 64 unused bit
positions, the accumulator word within the machine-word range, and all
unused low bits of the word zero. -/
def Valid (s : ExpGolombEncoder) : Prop :=
  1 ≤ s.bitsleft ∧ s.bitsleft ≤ egWordBits ∧ s.data < 2 ^ 64 ∧ s.data % 2 ^ s.bitsleft = 0

theorem natBitsBE_length (w x : Nat) : (natBitsBE w x).length = w := by
  induction w generalizing x with
  | zero => rfl
  | succ w ih => simp [natBitsBE, ih]

theorem natBitsBE_add (a b x : Nat) :
    natBitsBE (a + b) x = natBitsBE a (x >>> b) ++ natBitsBE b x := by
  induction a with
  | zero => simp [natBitsBE]
  | succ a ih =>
    rw [Nat.succ_add, natBitsBE, ih, natBitsBE]
    rw [Nat.add_comm a b, Nat.shiftRight_add]
    rfl

theorem natBitsBE_congr (w : Nat) {x y : Nat} (h : x % 2 ^ w = y % 2 ^ w) :
    natBitsBE w x = natBitsBE w y := by
  induction w generalizing x y with
  | zero => rfl
  | succ w ih =>
    rw [natBitsBE, natBitsBE]
    have hd : ∀ z : Nat, z >>> w &&& 1 = z % 2 ^ (w + 1) / 2 ^ w := by
      intro z
      rw [Nat.and_one_is_mod, Nat.shiftRight_eq_div_pow, pow_succ, Nat.mod_mul_right_div_self]
    have ht : x % 2 ^ w = y % 2 ^ w := by
      have hx : x % 2 ^ w = x % 2 ^ (w + 1) % 2 ^ w :=
        (Nat.mod_mod_of_dvd x (pow_dvd_pow 2 (Nat.le_succ w))).symm
      have hy : y % 2 ^ w = y % 2 ^ (w + 1) % 2 ^ w :=
        (Nat.mod_mod_of_dvd y (pow_dvd_pow 2 (Nat.le_succ w))).symm
      rw [hx, hy, h]
    rw [hd x, hd y, h, ih ht]

theorem natBitsBE_mod (w x : Nat) : natBitsBE w (x % 2 ^ w) = natBitsBE w x :=
  natBitsBE_congr w (Nat.mod_mod_of_dvd x dvd_rfl)

theorem natBitsBE_zero (w : Nat) : natBitsBE w 0 = List.replicate w 0 := by
  induction w with
  | zero => rfl
  | succ w ih => simp [natBitsBE, ih, List.replicate_succ]

theorem natBitsBE_of_low_zero (w x : Nat) (h : x % 2 ^ w = 0) :
    natBitsBE w x = List.replicate w 0 := by
  rw [← natBitsBE_mod, h, natBitsBE_zero]

/-- A number whose low `k` bits are clear ored with a number fitting in
`k` bits is their sum. -/
theorem two_pow_mul_lor_eq_add (k : Nat) : ∀ q b : Nat, b < 2 ^ k →
    q * 2 ^ k ||| b = q * 2 ^ k + b := by
  induction k with
  | zero =>
    intro q b hb
    interval_cases b
    simp
  | succ k ih =>
    intro q b hb
    have hb2 : b / 2 < 2 ^ k := by
      rw [pow_succ] at hb; omega
    have h1 : q * 2 ^ (k + 1) = Nat.bit false (q * 2 ^ k) := by
      rw [Nat.bit_val, pow_succ]
      simp
      ring
    have h2 : b = Nat.bit (decide (b % 2 = 1)) (b / 2) := by
      rw [Nat.bit_val]
      rcases Nat.mod_two_eq_zero_or_one b with h | h <;> simp [h] <;> omega
    conv_lhs => rw [h1, h2]
    rw [Nat.lor_bit, ih q (b / 2) hb2]
    simp only [Nat.bit_val, Bool.false_or]
    have h3 : b = 2 * (b / 2) + (decide (b % 2 = 1)).toNat := by
      rcases Nat.mod_two_eq_zero_or_one b with h | h <;> simp [h] <;> omega
    conv_rhs => rw [h3]
    rw [pow_succ]
    ring

theorem lor_eq_add_of_low_zero {a b k : Nat} (ha : a % 2 ^ k = 0) (hb : b < 2 ^ k) :
    a ||| b = a + b := by
  have : a = a / 2 ^ k * 2 ^ k := (Nat.div_mul_cancel (Nat.dvd_of_mod_eq_zero ha)).symm
  rw [this]
  exact two_pow_mul_lor_eq_add k (a / 2 ^ k) b hb

theorem bytesBits_append (l1 l2 : List Nat) :
    bytesBits (l1 ++ l2) = bytesBits l1 ++ bytesBits l2 := by
  induction l1 with
  | nil => rfl
  | cons b rest ih => simp [bytesBits, ih]

/-- The big-endian byte serialization of a word carries exactly its low
64 bits, in order. -/
theorem bytesBits_wordBytes (x : Nat) : bytesBits (wordBytes x) = natBitsBE 64 x := by
  have hm : ∀ y : Nat, natBitsBE 8 (y % 256) = natBitsBE 8 y := by
    intro y
    exact natBitsBE_mod 8 y
  show natBitsBE 8 (x >>> 56 % 256) ++ (natBitsBE 8 (x >>> 48 % 256) ++
    (natBitsBE 8 (x >>> 40 % 256) ++ (natBitsBE 8 (x >>> 32 % 256) ++
    (natBitsBE 8 (x >>> 24 % 256) ++ (natBitsBE 8 (x >>> 16 % 256) ++
    (natBitsBE 8 (x >>> 8 % 256) ++ (natBitsBE 8 (x % 256) ++ []))))))) = natBitsBE 64 x
  rw [hm, hm, hm, hm, hm, hm, hm, hm]
  rw [show (64 : Nat) = 8 + 56 from rfl, natBitsBE_add]
  rw [show (56 : Nat) = 8 + 48 from rfl, natBitsBE_add]
  rw [show (48 : Nat) = 8 + 40 from rfl, natBitsBE_add]
  rw [show (40 : Nat) = 8 + 32 from rfl, natBitsBE_add]
  rw [show (32 : Nat) = 8 + 24 from rfl, natBitsBE_add]
  rw [show (24 : Nat) = 8 + 16 from rfl, natBitsBE_add]
  rw [show (16 : Nat) = 8 + 8 from rfl, natBitsBE_add]
  simp [List.append_assoc]

/-! ### The encoder appends bits -/

theorem mod_pow_eq_zero_of_le {data bl k : Nat} (h : data % 2 ^ bl = 0) (hk : k ≤ bl) :
    data % 2 ^ k = 0 :=
  Nat.dvd_iff_mod_eq_zero.mp (Nat.dvd_trans (pow_dvd_pow 2 hk) (Nat.dvd_of_mod_eq_zero h))

/-- `emitBits` moves the whole word to the byte sink; at the bit level
the stream gains exactly the word's 64 bits. -/
theorem streamBits_emitBits (s : ExpGolombEncoder) :
    streamBits (emitBits s) = bytesBits s.out ++ natBitsBE 64 s.data := by
  simp [streamBits, emitBits, bytesBits_append, bytesBits_wordBytes, egWordBits, natBitsBE]

/-- Bit concatenation bound: a value of `a` bits followed by `c` more
bits fits in `a + c` bits. -/
theorem concat_lt {q b : Nat} (a c : Nat) (hq : q < 2 ^ a) (hb : b < 2 ^ c) :
    q * 2 ^ c + b < 2 ^ (a + c) := by
  have h1 : (q + 1) * 2 ^ c = q * 2 ^ c + 2 ^ c := by ring
  have h2 : (q + 1) * 2 ^ c ≤ 2 ^ a * 2 ^ c := Nat.mul_le_mul_right _ (by omega)
  rw [pow_add]
  omega

/-- `addBits` appends exactly the low `nbins` bits of `bits` to the
committed stream and preserves the encoder invariant. -/
theorem streamBits_addBits (s : ExpGolombEncoder) (bits nbins : Nat) (hv : Valid s)
    (hn : nbins ≤ 64) (hb : bits < 2 ^ nbins) :
    streamBits (addBits s bits nbins) = streamBits s ++ natBitsBE nbins bits ∧
      Valid (addBits s bits nbins) := by
  obtain ⟨hbl1, hbl64, hdlt, hdm⟩ := hv
  simp only [egWordBits] at hbl64
  have hqdef : s.data = s.data / 2 ^ s.bitsleft * 2 ^ s.bitsleft :=
    (Nat.div_mul_cancel (Nat.dvd_of_mod_eq_zero hdm)).symm
  have hqlt : s.data / 2 ^ s.bitsleft < 2 ^ (64 - s.bitsleft) := by
    rw [Nat.div_lt_iff_lt_mul (Nat.pos_pow_of_pos _ (by omega)), ← pow_add]
    have : 64 - s.bitsleft + s.bitsleft = 64 := by omega
    rw [this]
    exact hdlt
  by_cases hlt : nbins < s.bitsleft
  · rw [addBits, if_pos hlt]
    have hc : bits <<< (s.bitsleft - nbins) = bits * 2 ^ (s.bitsleft - nbins) :=
      Nat.shiftLeft_eq bits _
    have hlt2 : bits * 2 ^ (s.bitsleft - nbins) < 2 ^ s.bitsleft := by
      calc bits * 2 ^ (s.bitsleft - nbins) < 2 ^ nbins * 2 ^ (s.bitsleft - nbins) :=
            (Nat.mul_lt_mul_right (Nat.pos_pow_of_pos _ (by omega))).mpr hb
        _ = 2 ^ s.bitsleft := by rw [← pow_add]; congr 1; omega
    have hmod : bits <<< (s.bitsleft - nbins) % 2 ^ 64 = bits * 2 ^ (s.bitsleft - nbins) := by
      rw [hc]
      exact Nat.mod_eq_of_lt
        (Nat.lt_of_lt_of_le hlt2 (Nat.pow_le_pow_right (by omega) hbl64))
    have hadd : s.data ||| bits <<< (s.bitsleft - nbins) % 2 ^ 64 =
        s.data + bits * 2 ^ (s.bitsleft - nbins) := by
      rw [hmod]
      exact lor_eq_add_of_low_zero hdm hlt2
    have hfact : s.data + bits * 2 ^ (s.bitsleft - nbins) =
        (s.data / 2 ^ s.bitsleft * 2 ^ nbins + bits) * 2 ^ (s.bitsleft - nbins) := by
      conv_lhs => rw [hqdef]
      have : (2 : Nat) ^ s.bitsleft = 2 ^ nbins * 2 ^ (s.bitsleft - nbins) := by
        rw [← pow_add]; congr 1; omega
      rw [this]; ring
    have hshift : (s.data ||| bits <<< (s.bitsleft - nbins) % 2 ^ 64) >>>
        (s.bitsleft - nbins) = s.data / 2 ^ s.bitsleft * 2 ^ nbins + bits := by
      rw [hadd, hfact, Nat.shiftRight_eq_div_pow]
      exact Nat.mul_div_cancel _ (Nat.pos_pow_of_pos _ (by omega))
    constructor
    · simp only [streamBits, egWordBits]
      rw [List.append_assoc]
      congr 1
      have hw : 64 - (s.bitsleft - nbins) = 64 - s.bitsleft + nbins := by omega
      rw [hw, hshift, natBitsBE_add]
      have h1 : (s.data / 2 ^ s.bitsleft * 2 ^ nbins + bits) >>> nbins =
          s.data >>> s.bitsleft := by
        rw [Nat.shiftRight_eq_div_pow, Nat.shiftRight_eq_div_pow,
          Nat.mul_comm (s.data / 2 ^ s.bitsleft) (2 ^ nbins),
          Nat.mul_add_div (Nat.pos_pow_of_pos _ (by omega)),
          Nat.div_eq_of_lt hb]
        omega
      have h2 : natBitsBE nbins (s.data / 2 ^ s.bitsleft * 2 ^ nbins + bits) =
          natBitsBE nbins bits :=
        natBitsBE_congr nbins (by
          rw [Nat.mul_comm (s.data / 2 ^ s.bitsleft) (2 ^ nbins), Nat.mul_add_mod])
      rw [h1, h2]
    · simp only [Valid, egWordBits]
      refine ⟨by omega, by omega, ?_, ?_⟩
      · rw [hadd, hfact]
        have h1 : s.data / 2 ^ s.bitsleft * 2 ^ nbins + bits <
            2 ^ (64 - s.bitsleft + nbins) := concat_lt (64 - s.bitsleft) nbins hqlt hb
        have h2 : (s.data / 2 ^ s.bitsleft * 2 ^ nbins + bits) * 2 ^ (s.bitsleft - nbins) + 0 <
            2 ^ (64 - s.bitsleft + nbins + (s.bitsleft - nbins)) :=
          concat_lt _ _ h1 (Nat.pos_pow_of_pos _ (by omega))
        have h3 : (2 : Nat) ^ (64 - s.bitsleft + nbins + (s.bitsleft - nbins)) ≤ 2 ^ 64 :=
          Nat.pow_le_pow_right (by omega) (by omega)
        omega
      · rw [hadd, hfact, Nat.mul_mod_left]
  · rw [addBits, if_neg hlt]
    have hr : nbins - s.bitsleft ≤ 63 := by omega
    have hlow : bits >>> (nbins - s.bitsleft) < 2 ^ s.bitsleft := by
      rw [Nat.shiftRight_eq_div_pow, Nat.div_lt_iff_lt_mul (Nat.pos_pow_of_pos _ (by omega)),
        ← pow_add]
      exact Nat.lt_of_lt_of_le hb (Nat.pow_le_pow_right (by omega) (by omega))
    have hadd : s.data ||| bits >>> (nbins - s.bitsleft) =
        s.data + bits >>> (nbins - s.bitsleft) :=
      lor_eq_add_of_low_zero hdm hlow
    constructor
    · simp only [streamBits, emitBits, bytesBits_append, bytesBits_wordBytes, egWordBits]
      have hw : (64 : Nat) - (64 - (nbins - s.bitsleft)) = nbins - s.bitsleft := by omega
      rw [hw]
      have hdat2 : bits <<< (64 - (nbins - s.bitsleft)) % 2 ^ 64 =
          bits % 2 ^ (nbins - s.bitsleft) * 2 ^ (64 - (nbins - s.bitsleft)) := by
        rw [Nat.shiftLeft_eq]
        have h64 : (2 : Nat) ^ 64 =
            2 ^ (nbins - s.bitsleft) * 2 ^ (64 - (nbins - s.bitsleft)) := by
          rw [← pow_add]; congr 1; omega
        rw [h64, Nat.mul_mod_mul_right]
      have hshift2 : (bits <<< (64 - (nbins - s.bitsleft)) % 2 ^ 64) >>>
          (64 - (nbins - s.bitsleft)) = bits % 2 ^ (nbins - s.bitsleft) := by
        rw [hdat2, Nat.shiftRight_eq_div_pow]
        exact Nat.mul_div_cancel _ (Nat.pos_pow_of_pos _ (by omega))
      rw [hshift2]
      have hsplit : natBitsBE 64 (s.data ||| bits >>> (nbins - s.bitsleft)) =
          natBitsBE (64 - s.bitsleft) (s.data >>> s.bitsleft) ++
            natBitsBE s.bitsleft (bits >>> (nbins - s.bitsleft)) := by
        have h64 : (64 : Nat) = (64 - s.bitsleft) + s.bitsleft := by omega
        conv_lhs => rw [h64]
        rw [natBitsBE_add]
        congr 1
        · congr 1
          have hadd2 := hadd
          have hlow2 := hlow
          simp only [Nat.shiftRight_eq_div_pow] at hadd2 hlow2 ⊢
          rw [hadd2]
          conv_lhs => rw [hqdef]
          rw [Nat.mul_comm (s.data / 2 ^ s.bitsleft) (2 ^ s.bitsleft),
            Nat.mul_add_div (Nat.pos_pow_of_pos _ (by omega)),
            Nat.div_eq_of_lt hlow2]
          omega
        · exact natBitsBE_congr _ (by
            rw [hadd, Nat.add_mod, hdm, Nat.zero_add, Nat.mod_mod_of_dvd _ dvd_rfl])
      rw [hsplit]
      have hbits : natBitsBE nbins bits =
          natBitsBE s.bitsleft (bits >>> (nbins - s.bitsleft)) ++
            natBitsBE (nbins - s.bitsleft) bits := by
        have hh : nbins = s.bitsleft + (nbins - s.bitsleft) := by omega
        conv_lhs => rw [hh, natBitsBE_add]
      rw [hbits, natBitsBE_mod]
      simp [List.append_assoc]
    · simp only [Valid, egWordBits]
      refine ⟨by omega, by omega, ?_, ?_⟩
      · exact Nat.mod_lt _ (Nat.pos_pow_of_pos _ (by omega))
      · have hdat2 : bits <<< (64 - (nbins - s.bitsleft)) % 2 ^ 64 =
            bits % 2 ^ (nbins - s.bitsleft) * 2 ^ (64 - (nbins - s.bitsleft)) := by
          rw [Nat.shiftLeft_eq]
          have h64 : (2 : Nat) ^ 64 =
              2 ^ (nbins - s.bitsleft) * 2 ^ (64 - (nbins - s.bitsleft)) := by
            rw [← pow_add]; congr 1; omega
          rw [h64, Nat.mul_mod_mul_right]
        rw [hdat2, Nat.mul_mod_left]

/-- The zero-word loop keeps the word empty, returns `n % 64` as the
leftover count, and emits `n - n % 64` zero bits worth of zero bytes. -/
theorem zeroWordsLoop_spec (n : Nat) : ∀ s : ExpGolombEncoder, s.data = 0 → s.bitsleft = 64 →
    (zeroWordsLoop n s).1.data = 0 ∧ (zeroWordsLoop n s).1.bitsleft = 64 ∧
    (zeroWordsLoop n s).2 = n % 64 ∧
    bytesBits (zeroWordsLoop n s).1.out = bytesBits s.out ++ List.replicate (n - n % 64) 0 := by
  induction n using Nat.strong_induction_on with
  | _ n ih =>
    intro s hd hb
    rw [zeroWordsLoop]
    by_cases h64 : n ≥ egWordBits
    · simp only [if_pos h64]
      simp only [egWordBits] at h64
      obtain ⟨h1, h2, h3, h4⟩ := ih (n - egWordBits) (by simp only [egWordBits]; omega)
        (emitBits s) rfl rfl
      refine ⟨h1, h2, ?_, ?_⟩
      · rw [h3]
        simp only [egWordBits]
        omega
      · rw [h4]
        simp only [emitBits, bytesBits_append, bytesBits_wordBytes, hd, natBitsBE_zero,
          egWordBits]
        rw [List.append_assoc, ← List.replicate_add]
        congr 2
        omega
    · simp only [if_neg h64]
      simp only [egWordBits] at h64
      refine ⟨hd, hb, by omega, ?_⟩
      have : n - n % 64 = 0 := by omega
      rw [this]
      simp

/-- `addZeroBits` appends exactly `nzeros` zero bits to the committed
stream and preserves the encoder invariant. -/
theorem streamBits_addZeroBits (s : ExpGolombEncoder) (nzeros : Nat) (hv : Valid s) :
    streamBits (addZeroBits s nzeros) = streamBits s ++ List.replicate nzeros 0 ∧
      Valid (addZeroBits s nzeros) := by
  obtain ⟨hbl1, hbl64, hdlt, hdm⟩ := hv
  simp only [egWordBits] at hbl64
  have hqdef : s.data = s.data / 2 ^ s.bitsleft * 2 ^ s.bitsleft :=
    (Nat.div_mul_cancel (Nat.dvd_of_mod_eq_zero hdm)).symm
  by_cases hlt : nzeros < s.bitsleft
  · rw [addZeroBits, if_pos hlt]
    constructor
    · simp only [streamBits, egWordBits]
      rw [List.append_assoc]
      congr 1
      have hw : 64 - (s.bitsleft - nzeros) = 64 - s.bitsleft + nzeros := by omega
      rw [hw]
      have hsh : s.data >>> (s.bitsleft - nzeros) =
          s.data / 2 ^ s.bitsleft * 2 ^ nzeros := by
        rw [Nat.shiftRight_eq_div_pow]
        conv_lhs => rw [hqdef]
        have hsp : (2 : Nat) ^ s.bitsleft = 2 ^ nzeros * 2 ^ (s.bitsleft - nzeros) := by
          rw [← pow_add]; congr 1; omega
        rw [hsp, ← Nat.mul_assoc]
        exact Nat.mul_div_cancel _ (Nat.pos_pow_of_pos _ (by omega))
      rw [hsh, natBitsBE_add]
      congr 1
      · congr 1
        rw [Nat.shiftRight_eq_div_pow, Nat.shiftRight_eq_div_pow]
        exact Nat.mul_div_cancel _ (Nat.pos_pow_of_pos _ (by omega))
      · exact natBitsBE_of_low_zero _ _ (Nat.mul_mod_left _ _)
    · simp only [Valid, egWordBits]
      exact ⟨by omega, by omega, hdlt, mod_pow_eq_zero_of_le hdm (by omega)⟩
  · rw [addZeroBits, if_neg hlt]
    obtain ⟨h1, h2, h3, h4⟩ := zeroWordsLoop_spec (nzeros - s.bitsleft) (emitBits s) rfl rfl
    constructor
    · simp only [streamBits, egWordBits]
      rw [h1, h2, h3, h4]
      simp only [emitBits, bytesBits_append, bytesBits_wordBytes, egWordBits]
      have hsplit : natBitsBE 64 s.data =
          natBitsBE (64 - s.bitsleft) (s.data >>> s.bitsleft) ++
            List.replicate s.bitsleft 0 := by
        have h64 : (64 : Nat) = (64 - s.bitsleft) + s.bitsleft := by omega
        conv_lhs => rw [h64]
        rw [natBitsBE_add]
        congr 1
        exact natBitsBE_of_low_zero _ _ hdm
      rw [hsplit, Nat.zero_shiftRight]
      have hw : 64 - (64 - (nzeros - s.bitsleft) % 64) = (nzeros - s.bitsleft) % 64 := by
        omega
      rw [hw, natBitsBE_zero]
      simp only [List.append_assoc]
      congr 1
      congr 1
      rw [← List.replicate_add, ← List.replicate_add]
      congr 1
      omega
    · simp only [Valid, egWordBits]
      rw [h1, h2, h3]
      exact ⟨by omega, by omega, Nat.pos_pow_of_pos 64 (by omega), Nat.zero_mod _⟩

/-- For the in-contract domain the source's `bitLen` computes the usual
bit length: `x` lies between `2 ^ (bitLen x - 1)` and `2 ^ bitLen x`.
The strict `x > 2 ^ 31` first test makes this fail at `x = 2 ^ 31`
exactly, which is why the encoder's contract stops at `2 ^ 31 - 2` (so
that `|v| + 1 ≤ 2 ^ 31 - 1`). -/
theorem bitLen_bounds (x : Nat) (h1 : 1 ≤ x) (h2 : x < 2 ^ 31) :
    2 ^ (bitLen x - 1) ≤ x ∧ x < 2 ^ bitLen x ∧ 1 ≤ bitLen x := by
  unfold bitLen
  simp only [Nat.shiftRight_eq_div_pow, Nat.shiftLeft_eq]
  norm_num
  have hno : ¬ (2147483648 < x) := by omega
  simp only [if_neg hno]
  split_ifs <;> omega

/-- The nonzero codeword payload `(m <<< 1) ||| sign` is `2 * m + sign`
and fits in `nbits + 2` bits. -/
theorem payload_fits (uitem sign : Nat) (hu1 : 2 ≤ uitem) (hu2 : uitem < 2 ^ 31)
    (hs : sign ≤ 1) :
    uitem <<< 1 ||| sign = 2 * uitem + sign ∧
      uitem <<< 1 ||| sign < 2 ^ (bitLen uitem - 1 + 2) ∧
      1 ≤ bitLen uitem - 1 ∧ bitLen uitem - 1 ≤ 30 := by
  obtain ⟨hlo, hhi, hpos⟩ := bitLen_bounds uitem (by omega) hu2
  have h2le : 2 ≤ bitLen uitem := by
    by_contra hcon
    have : bitLen uitem = 1 := by omega
    rw [this] at hhi
    norm_num at hhi
    omega
  have h31 : bitLen uitem ≤ 31 := by
    by_contra hcon
    have h32 : 32 ≤ bitLen uitem := by omega
    have := Nat.pow_le_pow_right (show 1 ≤ 2 by omega) (show 31 ≤ bitLen uitem - 1 by omega)
    norm_num at this hlo
    omega
  have heq : uitem <<< 1 ||| sign = 2 * uitem + sign := by
    rw [Nat.shiftLeft_eq, pow_one, Nat.mul_comm]
    exact lor_eq_add_of_low_zero (k := 1) (by omega) (by omega)
  refine ⟨heq, ?_, by omega, by omega⟩
  rw [heq]
  have hstep : bitLen uitem - 1 + 2 = bitLen uitem + 1 := by omega
  rw [hstep, pow_succ]
  omega


theorem fast_general_eq (s : ExpGolombEncoder) (c : Nat) (hc : c < 8) :
    addBits s c 4 = addBits (addZeroBits s 1) c 3 := by
  obtain ⟨d, bl, o⟩ := s
  by_cases h5 : 5 ≤ bl
  · rw [addBits, addZeroBits, if_pos (show (4 : Nat) < bl by omega),
      if_pos (show (1 : Nat) < bl by omega), addBits]
    simp only
    rw [if_pos (show (3 : Nat) < bl - 1 by omega)]
    have he : bl - 1 - 3 = bl - 4 := by omega
    rw [he]
  · by_cases h4 : bl = 4
    · subst h4
      rw [addBits, addZeroBits, if_neg (show ¬ (4 : Nat) < 4 by omega),
        if_pos (show (1 : Nat) < 4 by omega), addBits]
      simp only
      rw [if_neg (show ¬ (3 : Nat) < 4 - 1 by omega)]
      norm_num [emitBits]
    · by_cases h23 : 2 ≤ bl
      · rw [addBits, addZeroBits, if_neg (show ¬ (4 : Nat) < bl by omega),
          if_pos (show (1 : Nat) < bl by omega), addBits]
        simp only
        rw [if_neg (show ¬ (3 : Nat) < bl - 1 by omega)]
        have he1 : 3 - (bl - 1) = 4 - bl := by omega
        rw [he1]
        simp [emitBits]
      · by_cases h1 : bl = 1
        · subst h1
          have hc3 : c >>> 3 = 0 := by
            rw [Nat.shiftRight_eq_div_pow]
            omega
          simp [addBits, addZeroBits, zeroWordsLoop.eq_def, emitBits, egWordBits, hc3]
        · have h0 : bl = 0 := by omega
          subst h0
          have hc4 : c >>> 4 = 0 := by
            rw [Nat.shiftRight_eq_div_pow]
            omega
          simp [addBits, addZeroBits, zeroWordsLoop.eq_def, emitBits, egWordBits, hc4]

theorem add_eq_addGeneral (s : ExpGolombEncoder) (v : Int) (h0 : v ≠ 0) :
    add s v = addGeneral s v := by
  rcases eq_or_ne v 1 with h | hne1
  · subst h
    simp only [add, addGeneral, Int.natAbs_one]
    norm_num [show bitLen 2 = 2 from by decide]
    exact fast_general_eq s 4 (by omega)
  rcases eq_or_ne v (-1) with h | hnem1
  · subst h
    simp only [add, addGeneral, show ((-1 : Int)).natAbs = 1 from rfl]
    norm_num [show bitLen 2 = 2 from by decide, show ((2 : Nat) <<< 1 ||| 1) = 5 from by decide]
    exact fast_general_eq s 5 (by omega)
  rcases eq_or_ne v 2 with h | hne2
  · subst h
    simp only [add, addGeneral, show ((2 : Int)).natAbs = 2 from rfl]
    norm_num [show bitLen 3 = 2 from by decide, show ((3 : Nat) <<< 1 ||| 0) = 6 from by decide]
    exact fast_general_eq s 6 (by omega)
  rcases eq_or_ne v (-2) with h | hnem2
  · subst h
    simp only [add, addGeneral, show ((-2 : Int)).natAbs = 2 from rfl]
    norm_num [show bitLen 3 = 2 from by decide, show ((3 : Nat) <<< 1 ||| 1) = 7 from by decide]
    exact fast_general_eq s 7 (by omega)
  rw [add, if_neg h0, if_neg hne1, if_neg hnem1, if_neg hne2, if_neg hnem2]

/-- The general path appends the unary zero prefix and then the
`nbits + 2`-bit payload, and preserves the invariant. -/
theorem streamBits_addGeneral (s : ExpGolombEncoder) (item : Int) (hv : Valid s)
    (h0 : item ≠ 0) (hr : item.natAbs ≤ 2 ^ 31 - 2) :
    streamBits (addGeneral s item) =
      streamBits s ++ List.replicate (bitLen (item.natAbs + 1) - 1) 0 ++
        natBitsBE (bitLen (item.natAbs + 1) - 1 + 2)
          ((item.natAbs + 1) <<< 1 ||| if item < 0 then 1 else 0) ∧
      Valid (addGeneral s item) := by
  have hu1 : 2 ≤ item.natAbs + 1 := by
    have : item.natAbs ≠ 0 := fun hcon => h0 (Int.natAbs_eq_zero.mp hcon)
    omega
  have hu2 : item.natAbs + 1 < 2 ^ 31 := by
    have h31 : (2 : Nat) ^ 31 = 2147483648 := by norm_num
    omega
  obtain ⟨heq, hfits, hn1, hn30⟩ := payload_fits (item.natAbs + 1)
    (if item < 0 then 1 else 0) hu1 hu2 (by split_ifs <;> omega)
  obtain ⟨hz_eq, hz_val⟩ := streamBits_addZeroBits s (bitLen (item.natAbs + 1) - 1) hv
  obtain ⟨hb_eq, hb_val⟩ := streamBits_addBits
    (addZeroBits s (bitLen (item.natAbs + 1) - 1))
    ((item.natAbs + 1) <<< 1 ||| if item < 0 then 1 else 0)
    (bitLen (item.natAbs + 1) - 1 + 2) hz_val (by omega) hfits
  constructor
  · simp only [addGeneral]
    rw [hb_eq, hz_eq, List.append_assoc]
  · simp only [addGeneral]
    exact hb_val

/-- Encoding zero appends the single bit 1. -/
theorem streamBits_add_zero (s : ExpGolombEncoder) (hv : Valid s) :
    streamBits (add s 0) = streamBits s ++ [1] ∧ Valid (add s 0) := by
  rw [add, if_pos rfl]
  obtain ⟨he, hval⟩ := streamBits_addBits s 1 1 hv (by omega) (by omega)
  exact ⟨by rw [he]; rfl, hval⟩

/-- `bytesBits` commutes with `take`, eight bits to the byte. -/
theorem bytesBits_take (l : List Nat) : ∀ k : Nat,
    bytesBits (l.take k) = (bytesBits l).take (8 * k) := by
  induction l with
  | nil => intro k; simp [bytesBits]
  | cons b rest ih =>
    intro k
    cases k with
    | zero => simp [bytesBits]
    | succ k =>
      rw [List.take_succ_cons, bytesBits, bytesBits, ih k,
        List.take_append_eq_append_take,
        List.take_of_length_le (show (natBitsBE 8 b).length ≤ 8 * (k + 1) by
          rw [natBitsBE_length]; omega), natBitsBE_length]
      congr 2

/-- `emitPartialBits` pads the pending bits with zeros to a whole number
of bytes: the flushed byte stream carries the committed bits followed by
`8 * nbytes - pending` zero bits. -/
theorem bytesBits_emitPartialBits (s : ExpGolombEncoder) (hv : Valid s) :
    bytesBits (emitPartialBits s).out =
      streamBits s ++
        List.replicate (8 * ((64 - s.bitsleft + 7) / 8) - (64 - s.bitsleft)) 0 ∧
      (emitPartialBits s).out.length = s.out.length + (64 - s.bitsleft + 7) / 8 := by
  obtain ⟨hbl1, hbl64, hdlt, hdm⟩ := hv
  simp only [egWordBits] at hbl64
  have hqdef : s.data = s.data / 2 ^ s.bitsleft * 2 ^ s.bitsleft :=
    (Nat.div_mul_cancel (Nat.dvd_of_mod_eq_zero hdm)).symm
  set nb := (64 - s.bitsleft + 7) / 8 with hnb
  have hnb8 : nb ≤ 8 := by omega
  have hnlo : 64 - s.bitsleft ≤ 8 * nb := by omega
  have hnhi : 8 * nb ≤ 64 := by omega
  constructor
  · simp only [emitPartialBits, egWordBits, bytesBits_append, ← hnb]
    rw [bytesBits_take, bytesBits_wordBytes]
    have hA := natBitsBE_add (8 * nb) (64 - 8 * nb) s.data
    rw [show 8 * nb + (64 - 8 * nb) = 64 from by omega] at hA
    rw [hA, List.take_append_eq_append_take,
      List.take_of_length_le (show (natBitsBE (8 * nb) (s.data >>> (64 - 8 * nb))).length ≤
        8 * nb by rw [natBitsBE_length]),
      natBitsBE_length,
      show 8 * nb - 8 * nb = 0 from by omega]
    simp only [List.take_zero, List.append_nil]
    have hB := natBitsBE_add (64 - s.bitsleft) (8 * nb - (64 - s.bitsleft))
      (s.data >>> (64 - 8 * nb))
    rw [show 64 - s.bitsleft + (8 * nb - (64 - s.bitsleft)) = 8 * nb from by omega] at hB
    rw [hB]
    simp only [streamBits, egWordBits, List.append_assoc]
    congr 2
    · rw [← Nat.shiftRight_add,
        show 64 - 8 * nb + (8 * nb - (64 - s.bitsleft)) = s.bitsleft from by omega]
    · have hsh : s.data >>> (64 - 8 * nb) =
          s.data / 2 ^ s.bitsleft * 2 ^ (s.bitsleft - (64 - 8 * nb)) := by
        rw [Nat.shiftRight_eq_div_pow]
        conv_lhs => rw [hqdef]
        have hsp : (2 : Nat) ^ s.bitsleft =
            2 ^ (s.bitsleft - (64 - 8 * nb)) * 2 ^ (64 - 8 * nb) := by
          rw [← pow_add]; congr 1; omega
        rw [hsp, ← Nat.mul_assoc]
        exact Nat.mul_div_cancel _ (Nat.pos_pow_of_pos _ (by omega))
      rw [hsh]
      apply natBitsBE_of_low_zero
      rw [show s.bitsleft - (64 - 8 * nb) = 8 * nb - (64 - s.bitsleft) from by omega,
        Nat.mul_mod_left]
  · simp only [emitPartialBits, egWordBits, List.length_append, List.length_take, ← hnb]
    have : (wordBytes s.data).length = 8 := rfl
    omega

/-! ### Claims about the encoder -/

/-- C4: for each of `1, -1, 2, -2` the tabulated fast path in `add` is
state-for-state identical to the general nonzero encoding algorithm, from
any encoder state; and from a fresh encoder the codewords are the bit
patterns `1`, `0100`, `0101`, `0110`, `0111` (for `0` the single bit `1`
of the zero special case). -/
theorem fast_path_matches_general (s : ExpGolombEncoder) :
    (add s 1 = addGeneral s 1 ∧ add s (-1) = addGeneral s (-1) ∧
      add s 2 = addGeneral s 2 ∧ add s (-2) = addGeneral s (-2)) ∧
    streamBits (add NewExpGolombEncoder 0) = [1] ∧
    streamBits (add NewExpGolombEncoder 1) = [0, 1, 0, 0] ∧
    streamBits (add NewExpGolombEncoder (-1)) = [0, 1, 0, 1] ∧
    streamBits (add NewExpGolombEncoder 2) = [0, 1, 1, 0] ∧
    streamBits (add NewExpGolombEncoder (-2)) = [0, 1, 1, 1] :=
  ⟨⟨add_eq_addGeneral s 1 (by decide), add_eq_addGeneral s (-1) (by decide),
    add_eq_addGeneral s 2 (by decide), add_eq_addGeneral s (-2) (by decide)⟩,
    by decide, by decide, by decide, by decide, by decide⟩

/-- C5: encoding 0 appends exactly the single bit 1; encoding a nonzero
in-range value appends exactly `2 * nbits + 2` bits, where `nbits` is
`bitLen (|v| + 1) - 1`. -/
theorem codeword_lengths (s : ExpGolombEncoder) (v : Int) (hv : Valid s) (h0 : v ≠ 0)
    (hr : v.natAbs ≤ 2 ^ 31 - 2) :
    streamBits (add s 0) = streamBits s ++ [1] ∧
    (streamBits (add s v)).length =
      (streamBits s).length + (2 * (bitLen (v.natAbs + 1) - 1) + 2) := by
  refine ⟨(streamBits_add_zero s hv).1, ?_⟩
  rw [add_eq_addGeneral s v h0]
  obtain ⟨he, _⟩ := streamBits_addGeneral s v hv h0 hr
  rw [he]
  simp only [List.length_append, natBitsBE_length, List.length_replicate]
  omega

/-- Witness for C5 at the fresh encoder and `v = 3`. -/
theorem codeword_lengths_witness :
    Valid NewExpGolombEncoder ∧ (3 : Int) ≠ 0 ∧ (3 : Int).natAbs ≤ 2 ^ 31 - 2 ∧
    (streamBits (add NewExpGolombEncoder 0) = streamBits NewExpGolombEncoder ++ [1] ∧
      (streamBits (add NewExpGolombEncoder 3)).length =
        (streamBits NewExpGolombEncoder).length + (2 * (bitLen ((3 : Int).natAbs + 1) - 1) + 2)) :=
  ⟨⟨by decide, by decide, by decide, by decide⟩, by decide, by decide,
    codeword_lengths NewExpGolombEncoder 3 ⟨by decide, by decide, by decide, by decide⟩
      (by decide) (by decide)⟩

/-- C6: `Close` right-pads the pending bits with zeros up to the next
whole byte, writes exactly `(pending + 7) / 8` bytes, and writes nothing
when no bits are pending. -/
theorem close_pads_to_byte (s : ExpGolombEncoder) (hv : Valid s) :
    bytesBits (Close s).out =
      streamBits s ++
        List.replicate (8 * ((64 - s.bitsleft + 7) / 8) - (64 - s.bitsleft)) 0 ∧
    (Close s).out.length = s.out.length + (64 - s.bitsleft + 7) / 8 ∧
    (s.bitsleft = egWordBits → Close s = s) := by
  by_cases h : s.bitsleft = egWordBits
  · rw [Close, if_neg (fun hc => hc h)]
    simp only [egWordBits] at h
    refine ⟨?_, ?_, fun _ => rfl⟩
    · simp [streamBits, egWordBits, h, natBitsBE]
    · simp [h]
  · rw [Close, if_pos h]
    obtain ⟨hb, hl⟩ := bytesBits_emitPartialBits s hv
    exact ⟨hb, hl, fun hcon => absurd hcon h⟩

/-- Witness for C6 at the state reached by encoding `1` (four pending
bits, so one byte with four zero padding bits is written). -/
theorem close_pads_to_byte_witness :
    Valid (add NewExpGolombEncoder 1) ∧
    (bytesBits (Close (add NewExpGolombEncoder 1)).out =
      streamBits (add NewExpGolombEncoder 1) ++
        List.replicate (8 * ((64 - (add NewExpGolombEncoder 1).bitsleft + 7) / 8) -
          (64 - (add NewExpGolombEncoder 1).bitsleft)) 0 ∧
      (Close (add NewExpGolombEncoder 1)).out.length =
        (add NewExpGolombEncoder 1).out.length +
          (64 - (add NewExpGolombEncoder 1).bitsleft + 7) / 8 ∧
      ((add NewExpGolombEncoder 1).bitsleft = egWordBits →
        Close (add NewExpGolombEncoder 1) = add NewExpGolombEncoder 1)) :=
  ⟨⟨by decide, by decide, by decide, by decide⟩,
    close_pads_to_byte (add NewExpGolombEncoder 1)
      ⟨by decide, by decide, by decide, by decide⟩⟩

/-- C7: the encoder invariant (1 to 64 unused bits, word-sized
accumulator, unused low bits zero) is preserved by every complete
operation: `addBits` of a fitting bit group, `addZeroBits`, `add` of an
in-range value, and `Close`. -/
theorem encoder_invariant (s : ExpGolombEncoder) (bits nbits nzeros : Nat) (v : Int)
    (hv : Valid s) :
    (nbits ≤ 64 → bits < 2 ^ nbits → Valid (addBits s bits nbits)) ∧
    Valid (addZeroBits s nzeros) ∧
    (v.natAbs ≤ 2 ^ 31 - 2 → Valid (add s v)) ∧
    Valid (Close s) := by
  refine ⟨fun h1 h2 => (streamBits_addBits s bits nbits hv h1 h2).2,
    (streamBits_addZeroBits s nzeros hv).2, fun hr => ?_, ?_⟩
  · by_cases h0 : v = 0
    · subst h0
      exact (streamBits_add_zero s hv).2
    · rw [add_eq_addGeneral s v h0]
      exact (streamBits_addGeneral s v hv h0 hr).2
  · rw [Close]
    by_cases h : s.bitsleft = egWordBits
    · rw [if_neg (fun hc => hc h)]
      exact hv
    · rw [if_pos h]
      simp only [Valid, emitPartialBits, egWordBits]
      exact ⟨by omega, by omega, Nat.pos_pow_of_pos 64 (by omega), Nat.zero_mod _⟩

/-- Witness for C7 at the fresh encoder. -/
theorem encoder_invariant_witness :
    Valid NewExpGolombEncoder ∧
    (((4 : Nat) ≤ 64 → (5 : Nat) < 2 ^ 4 → Valid (addBits NewExpGolombEncoder 5 4)) ∧
      Valid (addZeroBits NewExpGolombEncoder 3) ∧
      ((3 : Int).natAbs ≤ 2 ^ 31 - 2 → Valid (add NewExpGolombEncoder 3)) ∧
      Valid (Close NewExpGolombEncoder)) :=
  ⟨⟨by decide, by decide, by decide, by decide⟩,
    encoder_invariant NewExpGolombEncoder 5 4 3 3
      ⟨by decide, by decide, by decide, by decide⟩⟩

/-- Decoder state: the Go struct's fields — the most recently read byte
`b`, the parse state `state`, the magnitude accumulator `val`, the
zero-run counter `zeros`, and the count `nBits` of unread bits remaining
in `b`.  The byte source is passed to `ReadLoop` explicitly. -/
structure ExpGolombDecoder where
  b : Nat
  state : Nat
  val : Int
  zeros : Int
  nBits : Nat
deriving DecidableEq, Repr

/-- `NewExpGolombDecoder`: the Go zero-value struct — byte 0, state
`COUNTING_ZEROS`, value 0, zero-run 0, no buffered bits. -/
def NewExpGolombDecoder : ExpGolombDecoder := ⟨0, COUNTING_ZEROS, 0, 0, 0⟩

/-- One step of the `switch s.state` in `Read`, on a single bit (0 or 1):
returns the updated decoder and the value emitted into `out`, if any.  A
state outside the three constants falls through the `switch` doing
nothing, as in Go. -/
def decodeBit (d : ExpGolombDecoder) (bit : Nat) : ExpGolombDecoder × Option Int :=
  if d.state = COUNTING_ZEROS then
    if bit = 0 then ({ d with zeros := d.zeros + 1 }, none)
    else if d.zeros = 0 then (d, some 0)
    else ({ d with state := SHIFTING_BITS, val := 1 }, none)
  else if d.state = SHIFTING_BITS then
    let v := d.val * 2 + bit
    let z := d.zeros - 1
    if z = 0 then ({ d with val := v - 1, zeros := z, state := COUNTING_ZEROS }, some (v - 1))
    else ({ d with val := v, zeros := z }, none)
  else if d.state = READING_SIGN then
    let v := if bit = 1 then -d.val else d.val
    ({ d with val := v, state := COUNTING_ZEROS }, some v)
  else (d, none)

/-- The inner `for s.nBits > 0` loop of `Read`: with `k` bits remaining in
the buffered byte, either return because the output buffer is full
(`true` flag, `nBits` left as is), or consume the next bit — bit `k - 1`
of `b`, most significant unread first — and continue.  `acc` is the
prefix of `out` already filled; its length is `cpos`. -/
def readBitsAux : Nat → ExpGolombDecoder → Nat → List Int → ExpGolombDecoder × List Int × Bool
  | 0, d, _, acc => ({ d with nBits := 0 }, acc, false)
  | k + 1, d, n, acc =>
    if acc.length ≥ n then ({ d with nBits := k + 1 }, acc, true)
    else
      readBitsAux k (decodeBit d (d.b >>> k &&& 1)).1 n
        (match (decodeBit d (d.b >>> k &&& 1)).2 with | some v => acc ++ [v] | none => acc)

/-- The outer loop of `Read`: drain the buffered byte, then either return
with the buffer full (final `Bool` is `false`, the nil error), or fetch
the next byte from the source — returning the read error (final `Bool`
`true`) if the source is exhausted.  Returns the decoder, the unconsumed
source suffix, the filled output values, and the error flag. -/
def ReadLoop (d : ExpGolombDecoder) (src : List Nat) (n : Nat) (acc : List Int) :
    ExpGolombDecoder × List Nat × List Int × Bool :=
  if (readBitsAux d.nBits d n acc).2.2 = true then
    ((readBitsAux d.nBits d n acc).1, src, (readBitsAux d.nBits d n acc).2.1, false)
  else
    match src with
    | [] => ((readBitsAux d.nBits d n acc).1, [], (readBitsAux d.nBits d n acc).2.1, true)
    | b :: rest =>
      ReadLoop { (readBitsAux d.nBits d n acc).1 with b := b, nBits := 8 } rest n
        (readBitsAux d.nBits d n acc).2.1

/-- `DeltaEncode`: delta the values against `start` and Exp-Golomb encode
the residuals, returning the closed byte stream. -/
def DeltaEncode (start : Int) (data : List Int) : List Nat :=
  let p := data.foldl (fun (q : ExpGolombEncoder × Int) i => (add q.1 (i - q.2), i))
    (NewExpGolombEncoder, start)
  (Close p.1).out

/-- The measure that decreases across a non-error `Read` call: nine per
unread source byte plus the bits buffered in the decoder. -/
def readMeasure (d : ExpGolombDecoder) (src : List Nat) : Nat :=
  9 * src.length + d.nBits

/-- When the output buffer is already full, the inner loop returns the
buffer-full flag at once, leaving `nBits` at the current count. -/
theorem readBitsAux_hit (k : Nat) (d : ExpGolombDecoder) (n : Nat) (acc : List Int)
    (h : n ≤ acc.length) (hk : k ≠ 0) :
    readBitsAux k d n acc = ({ d with nBits := k }, acc, true) := by
  cases k with
  | zero => exact absurd rfl hk
  | succ j => rw [readBitsAux]; rw [if_pos h]

theorem readBitsAux_nBits_le (k : Nat) (d : ExpGolombDecoder) (n : Nat) (acc : List Int) :
    (readBitsAux k d n acc).1.nBits ≤ k := by
  induction k generalizing d acc with
  | zero => simp [readBitsAux]
  | succ k ih =>
    rw [readBitsAux]
    by_cases hc : acc.length ≥ n
    · rw [if_pos hc]
    · rw [if_neg hc]
      exact Nat.le_trans (ih _ _) (Nat.le_succ k)

theorem readBitsAux_false_nBits (k : Nat) (d : ExpGolombDecoder) (n : Nat) (acc : List Int)
    (h : (readBitsAux k d n acc).2.2 = false) : (readBitsAux k d n acc).1.nBits = 0 := by
  induction k generalizing d acc with
  | zero => simp [readBitsAux]
  | succ k ih =>
    rw [readBitsAux] at h ⊢
    by_cases hc : acc.length ≥ n
    · rw [if_pos hc] at h; simp at h
    · rw [if_neg hc] at h ⊢
      exact ih _ _ h

theorem readBitsAux_true_nBits (k : Nat) (d : ExpGolombDecoder) (n : Nat) (acc : List Int)
    (hacc : acc.length < n) (h : (readBitsAux k d n acc).2.2 = true) :
    (readBitsAux k d n acc).1.nBits < k := by
  induction k generalizing d acc with
  | zero => simp [readBitsAux] at h
  | succ k ih =>
    rw [readBitsAux] at h ⊢
    rw [if_neg (by omega)] at h ⊢
    exact Nat.lt_succ_of_le (readBitsAux_nBits_le _ _ _ _)

/-- A non-error `Read` call that started with room in the output buffer
strictly decreases the combined source-plus-bits measure. -/
theorem ReadLoop_measure (src : List Nat) : ∀ (d : ExpGolombDecoder) (n : Nat) (acc : List Int),
    acc.length < n → (ReadLoop d src n acc).2.2.2 = false →
    readMeasure (ReadLoop d src n acc).1 (ReadLoop d src n acc).2.1 < readMeasure d src := by
  induction src with
  | nil =>
    intro d n acc hacc herr
    rw [ReadLoop] at herr ⊢
    by_cases hhit : (readBitsAux d.nBits d n acc).2.2 = true
    · rw [if_pos hhit] at herr ⊢
      simp only [readMeasure, List.length_nil]
      have := readBitsAux_true_nBits d.nBits d n acc hacc hhit
      omega
    · rw [if_neg hhit] at herr
      simp at herr
  | cons b rest ih =>
    intro d n acc hacc herr
    rw [ReadLoop] at herr ⊢
    by_cases hhit : (readBitsAux d.nBits d n acc).2.2 = true
    · rw [if_pos hhit] at herr ⊢
      simp only [readMeasure, List.length_cons]
      have := readBitsAux_true_nBits d.nBits d n acc hacc hhit
      omega
    · rw [if_neg hhit] at herr ⊢
      by_cases hlen : (readBitsAux d.nBits d n acc).2.1.length < n
      · have H := ih { (readBitsAux d.nBits d n acc).1 with b := b, nBits := 8 }
          n (readBitsAux d.nBits d n acc).2.1 hlen herr
        simp only [readMeasure, List.length_cons] at H ⊢
        omega
      · rw [ReadLoop.eq_def] at herr ⊢
        rw [readBitsAux_hit 8 _ n _ (by omega) (by omega)] at herr ⊢
        rw [if_pos rfl] at herr ⊢
        simp only [readMeasure, List.length_cons]
        omega

/-- The `for { decoder.Read(tmp); ... }` loop of `DeltaDecode`: read one
residual at a time into a one-slot buffer, add it to the running value
when one was decoded, and stop at the read error, returning the
accumulated results. -/
def deltaLoop (d : ExpGolombDecoder) (src : List Nat) (val : Int) (res : List Int) : List Int :=
  if herr : (ReadLoop d src 1 []).2.2.2 = true then
    match (ReadLoop d src 1 []).2.2.1 with
    | [] => res
    | v :: _ => res ++ [val + v]
  else
    match (ReadLoop d src 1 []).2.2.1 with
    | [] => deltaLoop (ReadLoop d src 1 []).1 (ReadLoop d src 1 []).2.1 val res
    | v :: _ =>
      deltaLoop (ReadLoop d src 1 []).1 (ReadLoop d src 1 []).2.1 (val + v) (res ++ [val + v])
termination_by readMeasure d src
decreasing_by
  all_goals exact ReadLoop_measure src d 1 [] (by simp) (by simpa using herr)

/-- `DeltaDecode`: decode the residual stream and emit running sums from
`base`, stopping when the source is exhausted. -/
def DeltaDecode (base : Int) (compressed : List Nat) : List Int :=
  deltaLoop NewExpGolombDecoder compressed base []

/-! ### Decoder analysis: the inner bit loop -/

/-- `decodeBit` never reads or writes the byte-buffer fields. -/
theorem decodeBit_set_nBits (d : ExpGolombDecoder) (x bit : Nat) :
    decodeBit { d with nBits := x } bit =
      ({ (decodeBit d bit).1 with nBits := x }, (decodeBit d bit).2) := by
  simp only [decodeBit]
  split_ifs <;> rfl

/-- The inner loop's result does not depend on the stale `nBits` field of
the decoder it is handed (every exit overwrites it). -/
theorem readBitsAux_indep (k : Nat) : ∀ (d : ExpGolombDecoder) (x n : Nat) (acc : List Int),
    readBitsAux k { d with nBits := x } n acc = readBitsAux k d n acc := by
  induction k with
  | zero => intro d x n acc; rfl
  | succ k ih =>
    intro d x n acc
    rw [readBitsAux, readBitsAux]
    by_cases hc : acc.length ≥ n
    · rw [if_pos hc, if_pos hc]
    · rw [if_neg hc, if_neg hc]
      simp only [decodeBit_set_nBits]
      rw [ih]

/-- Each bit emits at most one value. -/
theorem readBitsAux_len_le (k : Nat) : ∀ (d : ExpGolombDecoder) (n : Nat) (acc : List Int),
    (readBitsAux k d n acc).2.1.length ≤ acc.length + k := by
  induction k with
  | zero => intro d n acc; simp [readBitsAux]
  | succ k ih =>
    intro d n acc
    rw [readBitsAux]
    by_cases hc : acc.length ≥ n
    · rw [if_pos hc]
      dsimp only
      omega
    · rw [if_neg hc]
      rcases hem : (decodeBit d (d.b >>> k &&& 1)).2 with _ | v
      · have := ih (decodeBit d (d.b >>> k &&& 1)).1 n acc
        simp only [hem]
        omega
      · have := ih (decodeBit d (d.b >>> k &&& 1)).1 n (acc ++ [v])
        simp only [hem]
        simp only [List.length_append, List.length_cons, List.length_nil] at this
        omega

/-- The output never grows past the buffer size (`n`), except that an
oversize initial `acc` is returned as is. -/
theorem readBitsAux_len_max (k : Nat) : ∀ (d : ExpGolombDecoder) (n : Nat) (acc : List Int),
    (readBitsAux k d n acc).2.1.length ≤ max acc.length n := by
  induction k with
  | zero => intro d n acc; simp [readBitsAux]
  | succ k ih =>
    intro d n acc
    rw [readBitsAux]
    by_cases hc : acc.length ≥ n
    · rw [if_pos hc]
      dsimp only
      omega
    · rw [if_neg hc]
      rcases hem : (decodeBit d (d.b >>> k &&& 1)).2 with _ | v
      · have := ih (decodeBit d (d.b >>> k &&& 1)).1 n acc
        simp only [hem]
        omega
      · have := ih (decodeBit d (d.b >>> k &&& 1)).1 n (acc ++ [v])
        simp only [hem]
        simp only [List.length_append, List.length_cons, List.length_nil] at this
        omega

/-- Framing: while the buffer has room for all `k` remaining bits, the
inner loop just appends its (cap-independent) emissions to `acc` and
never reports the buffer full.  The canonical run uses cap `k + 1` and an
empty accumulator. -/
theorem readBitsAux_frame (k : Nat) : ∀ (d : ExpGolombDecoder) (n : Nat) (acc : List Int),
    acc.length + k < n →
    readBitsAux k d n acc =
      ((readBitsAux k d (k + 1) []).1, acc ++ (readBitsAux k d (k + 1) []).2.1, false) := by
  induction k with
  | zero =>
    intro d n acc h
    simp [readBitsAux]
  | succ k ih =>
    intro d n acc h
    rw [readBitsAux]
    rw [if_neg (by omega)]
    conv_rhs => rw [readBitsAux]
    rw [if_neg (by simp)]
    rcases hem : (decodeBit d (d.b >>> k &&& 1)).2 with _ | v
    · simp only [hem]
      rw [ih (decodeBit d (d.b >>> k &&& 1)).1 n acc (by omega),
        ih (decodeBit d (d.b >>> k &&& 1)).1 (k + 2) [] (by simp)]
      simp
    · simp only [hem]
      rw [ih (decodeBit d (d.b >>> k &&& 1)).1 n (acc ++ [v]) (by
          simp only [List.length_append, List.length_cons, List.length_nil]; omega),
        ih (decodeBit d (d.b >>> k &&& 1)).1 (k + 2) ([] ++ [v]) (by simp; omega)]
      simp

/-- A run that did not fill the buffer at cap `n` runs identically at
any larger cap. -/
theorem readBitsAux_noHitStable (k : Nat) : ∀ (d : ExpGolombDecoder) (n m : Nat)
    (acc : List Int), n ≤ m → (readBitsAux k d n acc).2.2 = false →
    readBitsAux k d m acc = readBitsAux k d n acc := by
  induction k with
  | zero => intro d n m acc _ _; rfl
  | succ k ih =>
    intro d n m acc hnm hh
    rw [readBitsAux] at hh ⊢
    by_cases hc : acc.length ≥ n
    · rw [if_pos hc] at hh
      simp at hh
    · rw [if_neg hc] at hh
      rw [if_neg (by omega)]
      conv_rhs => rw [readBitsAux, if_neg hc]
      exact ih _ n m _ hnm hh

/-- Continuation: a buffer-full return resumes transparently — running
with a larger cap equals running the returned state with that cap. -/
theorem readBitsAux_capStep (k : Nat) : ∀ (d : ExpGolombDecoder) (n m : Nat) (acc : List Int),
    n ≤ m → (readBitsAux k d n acc).2.2 = true →
    readBitsAux k d m acc =
      readBitsAux (readBitsAux k d n acc).1.nBits (readBitsAux k d n acc).1 m
        (readBitsAux k d n acc).2.1 := by
  induction k with
  | zero => intro d n m acc _ hh; simp [readBitsAux] at hh
  | succ k ih =>
    intro d n m acc hnm hh
    by_cases hc : acc.length ≥ n
    · have hn : readBitsAux (k + 1) d n acc = ({ d with nBits := k + 1 }, acc, true) := by
        rw [readBitsAux, if_pos hc]
      rw [hn]
      dsimp only
      exact (readBitsAux_indep (k + 1) d (k + 1) m acc).symm
    · have hn : readBitsAux (k + 1) d n acc =
          readBitsAux k (decodeBit d (d.b >>> k &&& 1)).1 n
            (match (decodeBit d (d.b >>> k &&& 1)).2 with
              | some v => acc ++ [v] | none => acc) := by
        rw [readBitsAux, if_neg hc]
      rw [hn] at hh ⊢
      rw [readBitsAux, if_neg (by omega)]
      exact ih _ n m _ hnm hh

/-- An error return from `Read` carries no unconsumed source and no
buffered bits: the decoder consumed everything before failing to fetch. -/
theorem ReadLoop_err_shape (src : List Nat) : ∀ (d : ExpGolombDecoder) (n : Nat)
    (acc : List Int), (ReadLoop d src n acc).2.2.2 = true →
    (ReadLoop d src n acc).2.1 = [] ∧ (ReadLoop d src n acc).1.nBits = 0 := by
  induction src with
  | nil =>
    intro d n acc _
    rw [ReadLoop]
    by_cases hhit : (readBitsAux d.nBits d n acc).2.2 = true
    · rw [if_pos hhit] at *
      simp_all [ReadLoop, hhit]
    · rw [if_neg hhit]
      exact ⟨rfl, readBitsAux_false_nBits _ _ _ _ (by simpa using hhit)⟩
  | cons b rest ih =>
    intro d n acc herr
    rw [ReadLoop] at herr ⊢
    by_cases hhit : (readBitsAux d.nBits d n acc).2.2 = true
    · rw [if_pos hhit] at herr
      simp at herr
    · rw [if_neg hhit] at herr ⊢
      exact ih _ n _ herr

/-- The buffered-bit count never exceeds a byte (8) after a `Read`. -/
theorem ReadLoop_nBits_le (src : List Nat) : ∀ (d : ExpGolombDecoder) (n : Nat)
    (acc : List Int), (ReadLoop d src n acc).1.nBits ≤ max d.nBits 8 := by
  induction src with
  | nil =>
    intro d n acc
    rw [ReadLoop]
    by_cases hhit : (readBitsAux d.nBits d n acc).2.2 = true
    · rw [if_pos hhit]
      dsimp only
      have := readBitsAux_nBits_le d.nBits d n acc
      omega
    · rw [if_neg hhit]
      dsimp only
      have := readBitsAux_nBits_le d.nBits d n acc
      omega
  | cons b rest ih =>
    intro d n acc
    rw [ReadLoop]
    by_cases hhit : (readBitsAux d.nBits d n acc).2.2 = true
    · rw [if_pos hhit]
      dsimp only
      have := readBitsAux_nBits_le d.nBits d n acc
      omega
    · rw [if_neg hhit]
      dsimp only
      have h8 := ih { (readBitsAux d.nBits d n acc).1 with b := b, nBits := 8 } n
        (readBitsAux d.nBits d n acc).2.1
      simp only at h8
      omega

/-- Continuation at `Read` level: a buffer-full return resumes
transparently with a larger buffer. -/
theorem ReadLoop_capStep (src : List Nat) : ∀ (d : ExpGolombDecoder) (n m : Nat)
    (acc : List Int), n ≤ m → (ReadLoop d src n acc).2.2.2 = false →
    ReadLoop d src m acc =
      ReadLoop (ReadLoop d src n acc).1 (ReadLoop d src n acc).2.1 m
        (ReadLoop d src n acc).2.2.1 := by
  induction src with
  | nil =>
    intro d n m acc hnm herr
    by_cases hhit : (readBitsAux d.nBits d n acc).2.2 = true
    · have hval : ReadLoop d [] n acc =
          ((readBitsAux d.nBits d n acc).1, [], (readBitsAux d.nBits d n acc).2.1, false) := by
        rw [ReadLoop, if_pos hhit]
      rw [hval]
      dsimp only
      conv_lhs => rw [ReadLoop]
      conv_rhs => rw [ReadLoop]
      rw [readBitsAux_capStep d.nBits d n m acc hnm hhit]
    · rw [ReadLoop, if_neg hhit] at herr
      simp at herr
  | cons b rest ih =>
    intro d n m acc hnm herr
    by_cases hhit : (readBitsAux d.nBits d n acc).2.2 = true
    · have hval : ReadLoop d (b :: rest) n acc =
          ((readBitsAux d.nBits d n acc).1, b :: rest,
            (readBitsAux d.nBits d n acc).2.1, false) := by
        rw [ReadLoop, if_pos hhit]
      rw [hval]
      dsimp only
      conv_lhs => rw [ReadLoop]
      conv_rhs => rw [ReadLoop]
      rw [readBitsAux_capStep d.nBits d n m acc hnm hhit]
    · have hval : ReadLoop d (b :: rest) n acc =
          ReadLoop { (readBitsAux d.nBits d n acc).1 with b := b, nBits := 8 } rest n
            (readBitsAux d.nBits d n acc).2.1 := by
        rw [ReadLoop, if_neg hhit]
      rw [hval] at herr ⊢
      rw [ReadLoop, readBitsAux_noHitStable d.nBits d n m acc hnm (by simpa using hhit),
        if_neg hhit]
      exact ih _ n m _ hnm herr

/-- Framing at `Read` level: with room for every bit of the source, a
`Read` consumes the whole source, appends the (cap-independent) decoded
values to the output prefix, and reports exhaustion.  The canonical run
uses cap `nBits + 8·|src| + 2` and an empty output. -/
theorem ReadLoop_frame (src : List Nat) : ∀ (d : ExpGolombDecoder) (n : Nat)
    (acc : List Int), acc.length + d.nBits + 8 * src.length < n →
    ReadLoop d src n acc =
      ((ReadLoop d src (d.nBits + 8 * src.length + 2) []).1, [],
        acc ++ (ReadLoop d src (d.nBits + 8 * src.length + 2) []).2.2.1, true) := by
  induction src with
  | nil =>
    intro d n acc h
    have e1 : ReadLoop d [] n acc =
        ((readBitsAux d.nBits d (d.nBits + 1) []).1, [],
          acc ++ (readBitsAux d.nBits d (d.nBits + 1) []).2.1, true) := by
      rw [ReadLoop, readBitsAux_frame d.nBits d n acc (by omega)]
      simp
    have e2 : ReadLoop d [] (d.nBits + 8 * ([] : List Nat).length + 2) [] =
        ((readBitsAux d.nBits d (d.nBits + 1) []).1, [],
          [] ++ (readBitsAux d.nBits d (d.nBits + 1) []).2.1, true) := by
      rw [ReadLoop, readBitsAux_frame d.nBits d _ [] (by simp)]
      simp
    rw [e1, e2]
    simp
  | cons b rest ih =>
    intro d n acc h
    have hV := readBitsAux_len_le d.nBits d (d.nBits + 1) []
    simp only [List.length_nil, Nat.zero_add] at hV
    have e1 : ReadLoop d (b :: rest) n acc =
        ReadLoop { (readBitsAux d.nBits d (d.nBits + 1) []).1 with b := b, nBits := 8 }
          rest n (acc ++ (readBitsAux d.nBits d (d.nBits + 1) []).2.1) := by
      rw [ReadLoop, readBitsAux_frame d.nBits d n acc (by simp at h ⊢; omega)]
      simp
    have e2 : ReadLoop d (b :: rest) (d.nBits + 8 * (b :: rest).length + 2) [] =
        ReadLoop { (readBitsAux d.nBits d (d.nBits + 1) []).1 with b := b, nBits := 8 }
          rest (d.nBits + 8 * (b :: rest).length + 2)
          ([] ++ (readBitsAux d.nBits d (d.nBits + 1) []).2.1) := by
      rw [ReadLoop, readBitsAux_frame d.nBits d _ [] (by simp; omega)]
      simp
    rw [e1, e2]
    rw [ih { (readBitsAux d.nBits d (d.nBits + 1) []).1 with b := b, nBits := 8 } n
      (acc ++ (readBitsAux d.nBits d (d.nBits + 1) []).2.1) (by
        simp only [List.length_append]
        simp at h ⊢
        omega)]
    rw [ih { (readBitsAux d.nBits d (d.nBits + 1) []).1 with b := b, nBits := 8 }
      (d.nBits + 8 * (b :: rest).length + 2)
      ([] ++ (readBitsAux d.nBits d (d.nBits + 1) []).2.1) (by
        dsimp only
        simp only [List.nil_append, List.length_cons]
        omega)]
    simp [List.append_assoc]

/-- The values a full `Read` (buffer big enough for every bit of the
source) decodes from `src` starting at decoder state `d`. -/
def residValues (d : ExpGolombDecoder) (src : List Nat) : List Int :=
  (ReadLoop d src (d.nBits + 8 * src.length + 2) []).2.2.1

/-- The decoder state after that full `Read`. -/
def afterRead (d : ExpGolombDecoder) (src : List Nat) : ExpGolombDecoder :=
  (ReadLoop d src (d.nBits + 8 * src.length + 2) []).1

theorem ReadLoop_cons_zero (d : ExpGolombDecoder) (b : Nat) (rest : List Nat) (n : Nat)
    (acc : List Int) (h : d.nBits = 0) :
    ReadLoop d (b :: rest) n acc = ReadLoop { d with b := b, nBits := 8 } rest n acc := by
  rw [ReadLoop, h]
  simp [readBitsAux]

theorem ReadLoop_nil_zero (d : ExpGolombDecoder) (n : Nat) (acc : List Int)
    (h : d.nBits = 0) : ReadLoop d [] n acc = (d, [], acc, true) := by
  obtain ⟨db, ds, dv, dz, dn⟩ := d
  simp only at h
  subst h
  rw [ReadLoop]
  simp [readBitsAux]

/-- Reading one byte from a bit-empty decoder: the after-state is the
canonical drain of that byte's eight bits and holds no buffered bits. -/
theorem afterRead_single (d : ExpGolombDecoder) (b : Nat) (h : d.nBits = 0) :
    afterRead d [b] = (readBitsAux 8 { d with b := b, nBits := 8 } 9 []).1 ∧
    residValues d [b] = (readBitsAux 8 { d with b := b, nBits := 8 } 9 []).2.1 ∧
    (afterRead d [b]).nBits = 0 := by
  have hfr := readBitsAux_frame 8 { d with b := b, nBits := 8 } (d.nBits + 8 * 1 + 2) []
    (by simp [h])
  have hfl : (readBitsAux 8 { d with b := b, nBits := 8 } 9 []).2.2 = false := by
    have := readBitsAux_frame 8 { d with b := b, nBits := 8 } 9 [] (by simp)
    rw [this]
  have e1 : ReadLoop d [b] (d.nBits + 8 * 1 + 2) [] =
      ((readBitsAux 8 { d with b := b, nBits := 8 } 9 []).1, [],
        (readBitsAux 8 { d with b := b, nBits := 8 } 9 []).2.1, true) := by
    rw [ReadLoop_cons_zero d b [] _ [] h, ReadLoop]
    simp only [hfr]
    simp
  refine ⟨?_, ?_, ?_⟩
  · simp only [afterRead, List.length_cons, List.length_nil]
    rw [e1]
  · simp only [residValues, List.length_cons, List.length_nil]
    rw [e1]
  · simp only [afterRead, List.length_cons, List.length_nil]
    rw [e1]
    exact readBitsAux_false_nBits _ _ _ _ hfl

/-- Full reads compose byte by byte: the values of a full read of
`b :: rest` are the values decoded from `b` followed by the values of a
full read of `rest` from the state left behind. -/
theorem residValues_cons (d : ExpGolombDecoder) (b : Nat) (rest : List Nat)
    (h : d.nBits = 0) :
    residValues d (b :: rest) = residValues d [b] ++ residValues (afterRead d [b]) rest ∧
    afterRead d (b :: rest) = afterRead (afterRead d [b]) rest := by
  obtain ⟨haf, hrv, hnb⟩ := afterRead_single d b h
  have hfl : (readBitsAux 8 { d with b := b, nBits := 8 } 9 []).2.2 = false := by
    have := readBitsAux_frame 8 { d with b := b, nBits := 8 } 9 [] (by simp)
    rw [this]
  have hVle := readBitsAux_len_le 8 { d with b := b, nBits := 8 } 9 []
  simp only [List.length_nil, Nat.zero_add] at hVle
  have hF0 : (readBitsAux 8 { d with b := b, nBits := 8 } 9 []).1.nBits = 0 :=
    readBitsAux_false_nBits _ _ _ _ hfl
  rcases rest with _ | ⟨r, rs⟩
  · constructor
    · rw [hrv, haf]
      simp only [residValues, List.length_nil]
      rw [ReadLoop_nil_zero _ _ _ hF0]
      simp
    · rw [haf]
      simp only [afterRead, List.length_nil]
      rw [ReadLoop_nil_zero _ _ _ hF0]
  · have hdrain := readBitsAux_frame 8 { d with b := b, nBits := 8 }
      (d.nBits + 8 * (b :: r :: rs).length + 2) [] (by simp [h]; omega)
    have e1 : ReadLoop d (b :: r :: rs) (d.nBits + 8 * (b :: r :: rs).length + 2) [] =
        ReadLoop { (readBitsAux 8 { d with b := b, nBits := 8 } 9 []).1 with
            b := r, nBits := 8 } rs (d.nBits + 8 * (b :: r :: rs).length + 2)
          (readBitsAux 8 { d with b := b, nBits := 8 } 9 []).2.1 := by
      rw [ReadLoop_cons_zero d b _ _ [] h, ReadLoop]
      simp only [hdrain]
      simp
    have e2 : ReadLoop (readBitsAux 8 { d with b := b, nBits := 8 } 9 []).1 (r :: rs)
        ((readBitsAux 8 { d with b := b, nBits := 8 } 9 []).1.nBits +
          8 * (r :: rs).length + 2) [] =
        ReadLoop { (readBitsAux 8 { d with b := b, nBits := 8 } 9 []).1 with
            b := r, nBits := 8 } rs
          ((readBitsAux 8 { d with b := b, nBits := 8 } 9 []).1.nBits +
            8 * (r :: rs).length + 2) [] := by
      rw [ReadLoop_cons_zero _ r rs _ [] hF0]
    have hcap1 : (readBitsAux 8 { d with b := b, nBits := 8 } 9 []).2.1.length +
        ({ (readBitsAux 8 { d with b := b, nBits := 8 } 9 []).1 with
          b := r, nBits := 8 } : ExpGolombDecoder).nBits + 8 * rs.length <
        d.nBits + 8 * (b :: r :: rs).length + 2 := by
      dsimp only
      simp only [List.length_cons]
      omega
    have hfr1 := ReadLoop_frame rs
      { (readBitsAux 8 { d with b := b, nBits := 8 } 9 []).1 with b := r, nBits := 8 }
      (d.nBits + 8 * (b :: r :: rs).length + 2)
      (readBitsAux 8 { d with b := b, nBits := 8 } 9 []).2.1 hcap1
    have hcap2 : ([] : List Int).length +
        ({ (readBitsAux 8 { d with b := b, nBits := 8 } 9 []).1 with
          b := r, nBits := 8 } : ExpGolombDecoder).nBits + 8 * rs.length <
        (readBitsAux 8 { d with b := b, nBits := 8 } 9 []).1.nBits +
          8 * (r :: rs).length + 2 := by
      dsimp only
      simp only [List.length_cons, List.length_nil]
      omega
    have hfr2 := ReadLoop_frame rs
      { (readBitsAux 8 { d with b := b, nBits := 8 } 9 []).1 with b := r, nBits := 8 }
      ((readBitsAux 8 { d with b := b, nBits := 8 } 9 []).1.nBits +
        8 * (r :: rs).length + 2) [] hcap2
    constructor
    · show residValues d (b :: r :: rs) =
        residValues d [b] ++ residValues (afterRead d [b]) (r :: rs)
      rw [hrv, haf]
      simp only [residValues]
      rw [e1, hfr1, e2, hfr2]
      simp
    · show afterRead d (b :: r :: rs) = afterRead (afterRead d [b]) (r :: rs)
      rw [haf]
      simp only [afterRead]
      rw [e1, hfr1, e2, hfr2]

/-- A `Read` that ended in source exhaustion behaves the same under any
larger output buffer. -/
theorem ReadLoop_errStable (src : List Nat) : ∀ (d : ExpGolombDecoder) (n m : Nat)
    (acc : List Int), n ≤ m → (ReadLoop d src n acc).2.2.2 = true →
    ReadLoop d src m acc = ReadLoop d src n acc := by
  induction src with
  | nil =>
    intro d n m acc hnm herr
    rw [ReadLoop] at herr
    by_cases hhit : (readBitsAux d.nBits d n acc).2.2 = true
    · rw [if_pos hhit] at herr
      simp at herr
    · rw [if_neg hhit] at herr
      rw [ReadLoop, ReadLoop, readBitsAux_noHitStable d.nBits d n m acc hnm
        (by simpa using hhit)]
  | cons b rest ih =>
    intro d n m acc hnm herr
    rw [ReadLoop] at herr
    by_cases hhit : (readBitsAux d.nBits d n acc).2.2 = true
    · rw [if_pos hhit] at herr
      simp at herr
    · rw [if_neg hhit] at herr
      rw [ReadLoop, ReadLoop, readBitsAux_noHitStable d.nBits d n m acc hnm
        (by simpa using hhit), if_neg hhit, if_neg hhit]
      exact ih _ n m _ hnm herr

/-- The filled output never exceeds the larger of the initial prefix and
the buffer capacity. -/
theorem ReadLoop_len_max (src : List Nat) : ∀ (d : ExpGolombDecoder) (n : Nat)
    (acc : List Int), (ReadLoop d src n acc).2.2.1.length ≤ max acc.length n := by
  induction src with
  | nil =>
    intro d n acc
    rw [ReadLoop]
    by_cases hhit : (readBitsAux d.nBits d n acc).2.2 = true
    · rw [if_pos hhit]
      exact readBitsAux_len_max d.nBits d n acc
    · rw [if_neg hhit]
      exact readBitsAux_len_max d.nBits d n acc
  | cons b rest ih =>
    intro d n acc
    rw [ReadLoop]
    by_cases hhit : (readBitsAux d.nBits d n acc).2.2 = true
    · rw [if_pos hhit]
      exact readBitsAux_len_max d.nBits d n acc
    · rw [if_neg hhit]
      have h1 := readBitsAux_len_max d.nBits d n acc
      have h2 := ih { (readBitsAux d.nBits d n acc).1 with b := b, nBits := 8 } n
        (readBitsAux d.nBits d n acc).2.1
      omega

/-- A buffer-full return fills the buffer exactly when it had room at
entry. -/
theorem readBitsAux_capLen (k : Nat) : ∀ (d : ExpGolombDecoder) (n : Nat) (acc : List Int),
    acc.length < n → (readBitsAux k d n acc).2.2 = true →
    (readBitsAux k d n acc).2.1.length = n := by
  induction k with
  | zero => intro d n acc _ hh; simp [readBitsAux] at hh
  | succ k ih =>
    intro d n acc hacc hh
    rw [readBitsAux, if_neg (by omega)] at hh ⊢
    rcases hem : (decodeBit d (d.b >>> k &&& 1)).2 with _ | v
    · simp only [hem] at hh ⊢
      exact ih _ n acc hacc hh
    · simp only [hem] at hh ⊢
      by_cases hlen : (acc ++ [v]).length < n
      · exact ih _ n (acc ++ [v]) hlen hh
      · have hle : (acc ++ [v]).length = n := by
          simp only [List.length_append, List.length_cons, List.length_nil] at hlen ⊢
          omega
        cases k with
        | zero => simp [readBitsAux] at hh
        | succ j =>
          rw [readBitsAux_hit (j + 1) _ n _ (by omega) (by omega)] at hh ⊢
          exact hle

/-- A buffer-full `Read` fills the buffer exactly. -/
theorem ReadLoop_capLen (src : List Nat) : ∀ (d : ExpGolombDecoder) (n : Nat)
    (acc : List Int), acc.length < n → (ReadLoop d src n acc).2.2.2 = false →
    (ReadLoop d src n acc).2.2.1.length = n := by
  induction src with
  | nil =>
    intro d n acc hacc herr
    rw [ReadLoop] at herr ⊢
    by_cases hhit : (readBitsAux d.nBits d n acc).2.2 = true
    · rw [if_pos hhit] at herr ⊢
      exact readBitsAux_capLen d.nBits d n acc hacc hhit
    · rw [if_neg hhit] at herr
      simp at herr
  | cons b rest ih =>
    intro d n acc hacc herr
    rw [ReadLoop] at herr ⊢
    by_cases hhit : (readBitsAux d.nBits d n acc).2.2 = true
    · rw [if_pos hhit] at herr ⊢
      exact readBitsAux_capLen d.nBits d n acc hacc hhit
    · rw [if_neg hhit] at herr ⊢
      by_cases hlen : (readBitsAux d.nBits d n acc).2.1.length < n
      · exact ih _ n _ hlen herr
      · have hmax := readBitsAux_len_max d.nBits d n acc
        have heq : (readBitsAux d.nBits d n acc).2.1.length = n := by omega
        rw [ReadLoop.eq_def]
        dsimp only
        rw [readBitsAux_hit 8 _ n _ (by omega) (by omega)]
        simp
        exact heq

/-- The running-sum emission of `DeltaDecode`: each decoded residual is
added to the running value, which is emitted. -/
def runningSums : Int → List Int → List Int
  | _, [] => []
  | b, v :: vs => (b + v) :: runningSums (b + v) vs

/-- Feeding the decoder one byte per `Read` call, with a fresh output
buffer of nine slots each call (ample for the at most eight values one
byte can complete), concatenating the outputs. -/
def feedOneByOne : ExpGolombDecoder → List Nat → List Int
  | _, [] => []
  | d, b :: rest =>
    (ReadLoop d [b] 9 []).2.2.1 ++ feedOneByOne (ReadLoop d [b] 9 []).1 rest

/-- Byte-at-a-time feeding decodes exactly the full-read values. -/
theorem feedOneByOne_eq (bytes : List Nat) : ∀ d : ExpGolombDecoder, d.nBits = 0 →
    feedOneByOne d bytes = residValues d bytes := by
  induction bytes with
  | nil =>
    intro d h
    rw [feedOneByOne, residValues, ReadLoop_nil_zero _ _ _ h]
  | cons b rest ih =>
    intro d h
    have hfr := ReadLoop_frame [b] d 9 [] (by simp [h])
    have e9 : ReadLoop d [b] 9 [] =
        ((ReadLoop d [b] (d.nBits + 8 * 1 + 2) []).1, [],
          (ReadLoop d [b] (d.nBits + 8 * 1 + 2) []).2.2.1, true) := by
      rw [hfr]
      simp
    obtain ⟨hvals, hafter⟩ := residValues_cons d b rest h
    obtain ⟨_, _, hnb0⟩ := afterRead_single d b h
    rw [feedOneByOne, e9]
    dsimp only
    rw [ih _ (by simpa [afterRead] using hnb0), hvals]
    rw [show residValues d [b] = (ReadLoop d [b] (d.nBits + 8 * 1 + 2) []).2.2.1 from by
      simp [residValues]]
    rw [show afterRead d [b] = (ReadLoop d [b] (d.nBits + 8 * 1 + 2) []).1 from by
      simp [afterRead]]

/-- The `DeltaDecode` read loop emits the running sums of the residuals
of a single full read, appended to the accumulated results. -/
theorem deltaLoop_eq (M : Nat) : ∀ (d : ExpGolombDecoder) (src : List Nat),
    readMeasure d src ≤ M → ∀ (val : Int) (res : List Int), d.nBits ≤ 8 →
    deltaLoop d src val res = res ++ runningSums val (residValues d src) := by
  induction M using Nat.strong_induction_on with
  | _ M ih =>
    intro d src hM val res hnb
    rw [deltaLoop]
    by_cases herr : (ReadLoop d src 1 []).2.2.2 = true
    · rw [dif_pos herr]
      have hstab := ReadLoop_errStable src d 1 (d.nBits + 8 * src.length + 2) []
        (by omega) herr
      have hres : residValues d src = (ReadLoop d src 1 []).2.2.1 := by
        rw [residValues, hstab]
      have hlen : (ReadLoop d src 1 []).2.2.1.length ≤ 1 := by
        have := ReadLoop_len_max src d 1 []
        simpa using this
      rcases hv : (ReadLoop d src 1 []).2.2.1 with _ | ⟨v, tail⟩
      · rw [hres, hv]
        simp [runningSums]
      · rcases tail with _ | ⟨w, tail2⟩
        · rw [hres, hv]
          simp [runningSums]
        · rw [hv] at hlen
          simp at hlen
    · rw [dif_neg herr]
      have herrf : (ReadLoop d src 1 []).2.2.2 = false := by
        simpa using herr
      have hdec := ReadLoop_measure src d 1 [] (by simp) herrf
      have hlen := ReadLoop_capLen src d 1 [] (by simp) herrf
      have hnb2 := ReadLoop_nBits_le src d 1 []
      rcases hv : (ReadLoop d src 1 []).2.2.1 with _ | ⟨v, tail⟩
      · rw [hv] at hlen
        simp at hlen
      · have htail : tail = [] := by
          rw [hv] at hlen
          simp at hlen
          exact hlen
        subst htail
        dsimp only
        have hsplit : residValues d src =
            v :: residValues (ReadLoop d src 1 []).1 (ReadLoop d src 1 []).2.1 := by
          have hcs := ReadLoop_capStep src d 1 (d.nBits + 8 * src.length + 2) []
            (by omega) herrf
          have hcap : (ReadLoop d src 1 []).2.2.1.length +
              (ReadLoop d src 1 []).1.nBits + 8 * (ReadLoop d src 1 []).2.1.length <
              d.nBits + 8 * src.length + 2 := by
            simp only [readMeasure] at hdec
            rw [hv]
            simp only [List.length_cons, List.length_nil]
            omega
          have hfr := ReadLoop_frame (ReadLoop d src 1 []).2.1 (ReadLoop d src 1 []).1
            (d.nBits + 8 * src.length + 2) (ReadLoop d src 1 []).2.2.1 hcap
          rw [residValues, hcs, hfr, hv]
          simp [residValues]
        rw [hsplit, runningSums]
        have hIH := ih (readMeasure (ReadLoop d src 1 []).1 (ReadLoop d src 1 []).2.1)
          (by simp only [readMeasure] at hdec hM ⊢; omega)
          (ReadLoop d src 1 []).1 (ReadLoop d src 1 []).2.1 le_rfl (val + v)
          (res ++ [val + v]) (by omega)
        rw [hIH]
        simp [List.append_assoc]

/-- `DeltaDecode` equals the running sums over the residuals of one full
decode of the byte stream. -/
theorem DeltaDecode_eq (base : Int) (bytes : List Nat) :
    DeltaDecode base bytes = runningSums base (residValues NewExpGolombDecoder bytes) := by
  have h := deltaLoop_eq (readMeasure NewExpGolombDecoder bytes) NewExpGolombDecoder bytes
    le_rfl base [] (by simp [NewExpGolombDecoder])
  rw [DeltaDecode, h]
  simp

/-! ### Claims about the decoder and the delta wrappers -/

theorem decodeBit_state (d : ExpGolombDecoder) (bit : Nat)
    (h : d.state = COUNTING_ZEROS ∨ d.state = SHIFTING_BITS) :
    (decodeBit d bit).1.state = COUNTING_ZEROS ∨
      (decodeBit d bit).1.state = SHIFTING_BITS := by
  rcases h with h | h <;>
    simp only [decodeBit, h, COUNTING_ZEROS, SHIFTING_BITS, READING_SIGN] <;>
    split_ifs <;>
    simp_all [COUNTING_ZEROS, SHIFTING_BITS]

theorem readBitsAux_state (k : Nat) : ∀ (d : ExpGolombDecoder) (n : Nat) (acc : List Int),
    (d.state = COUNTING_ZEROS ∨ d.state = SHIFTING_BITS) →
    ((readBitsAux k d n acc).1.state = COUNTING_ZEROS ∨
      (readBitsAux k d n acc).1.state = SHIFTING_BITS) := by
  induction k with
  | zero => intro d n acc h; simpa [readBitsAux] using h
  | succ k ih =>
    intro d n acc h
    rw [readBitsAux]
    by_cases hc : acc.length ≥ n
    · rw [if_pos hc]
      simpa using h
    · rw [if_neg hc]
      exact ih _ n _ (decodeBit_state d _ h)

/-- C10 invariant: from any state in `{COUNTING_ZEROS, SHIFTING_BITS}`, a
`Read` leaves the parse state in `{COUNTING_ZEROS, SHIFTING_BITS}`; no
transition ever assigns `READING_SIGN`. -/
theorem ReadLoop_state (src : List Nat) : ∀ (d : ExpGolombDecoder) (n : Nat)
    (acc : List Int), (d.state = COUNTING_ZEROS ∨ d.state = SHIFTING_BITS) →
    ((ReadLoop d src n acc).1.state = COUNTING_ZEROS ∨
      (ReadLoop d src n acc).1.state = SHIFTING_BITS) := by
  induction src with
  | nil =>
    intro d n acc h
    rw [ReadLoop]
    by_cases hhit : (readBitsAux d.nBits d n acc).2.2 = true
    · rw [if_pos hhit]
      exact readBitsAux_state d.nBits d n acc h
    · rw [if_neg hhit]
      exact readBitsAux_state d.nBits d n acc h
  | cons b rest ih =>
    intro d n acc h
    rw [ReadLoop]
    by_cases hhit : (readBitsAux d.nBits d n acc).2.2 = true
    · rw [if_pos hhit]
      exact readBitsAux_state d.nBits d n acc h
    · rw [if_neg hhit]
      refine ih _ n _ ?_
      have := readBitsAux_state d.nBits d n acc h
      simpa using this

/-- C10: in every decoder state reachable from the initial one the
`state` field is `COUNTING_ZEROS` or `SHIFTING_BITS`; the decoder never
enters `READING_SIGN`, whose `Read` branch is dead code. -/
theorem reading_sign_unreachable (d : ExpGolombDecoder) (src : List Nat) (n : Nat)
    (acc : List Int) (h : d.state = COUNTING_ZEROS ∨ d.state = SHIFTING_BITS) :
    ((ReadLoop d src n acc).1.state = COUNTING_ZEROS ∨
      (ReadLoop d src n acc).1.state = SHIFTING_BITS) ∧
    (ReadLoop d src n acc).1.state ≠ READING_SIGN ∧
    NewExpGolombDecoder.state = COUNTING_ZEROS := by
  have hs := ReadLoop_state src d n acc h
  refine ⟨hs, ?_, rfl⟩
  rcases hs with hs | hs <;> rw [hs] <;> simp [COUNTING_ZEROS, SHIFTING_BITS, READING_SIGN]

/-- Witness for C10 at the initial decoder and the encoding of `-1`. -/
theorem reading_sign_unreachable_witness :
    (NewExpGolombDecoder.state = COUNTING_ZEROS ∨
      NewExpGolombDecoder.state = SHIFTING_BITS) ∧
    (((ReadLoop NewExpGolombDecoder [80] 10 []).1.state = COUNTING_ZEROS ∨
      (ReadLoop NewExpGolombDecoder [80] 10 []).1.state = SHIFTING_BITS) ∧
    (ReadLoop NewExpGolombDecoder [80] 10 []).1.state ≠ READING_SIGN ∧
    NewExpGolombDecoder.state = COUNTING_ZEROS) :=
  ⟨Or.inl rfl, reading_sign_unreachable NewExpGolombDecoder [80] 10 [] (Or.inl rfl)⟩

/-- C1 fails on the code: encoding `-1` yields the byte `0x50` (bits
`0101 0000`), and decoding it back yields `1` as the first value (and a
spurious `0`), not `-1`: the decoder never consumes the sign bit as a
sign. -/
theorem decode_encode_neg_one :
    (Close (add NewExpGolombEncoder (-1))).out = [80] ∧
    (ReadLoop NewExpGolombDecoder (Close (add NewExpGolombEncoder (-1))).out 10 []).2.2.1 =
      [1, 0] ∧
    ([1, 0] : List Int) ≠ [-1] := by
  refine ⟨by decide, by decide, by decide⟩

/-- C2 fails on the code: on the codeword of `-1` (byte `0x50`, prefix of
one zero then `1 0 1`), the decoder emits the magnitude value right when
the shift count reaches zero — after the delimiter and `nbits` magnitude
bits only, `nbits + 1` bits past the prefix — returns to
`COUNTING_ZEROS` without ever entering `READING_SIGN`, and then consumes
the sign bit `1` as a fresh zero-length run, emitting a spurious `0`. -/
theorem shifting_emits_without_sign_bit :
    ReadLoop NewExpGolombDecoder [80] 10 [] =
      ({ b := 80, state := COUNTING_ZEROS, val := 1, zeros := 4, nBits := 0 }, [], [1, 0],
        true) := by
  decide

/-- C3 fails on the code: `DeltaDecode 0 (DeltaEncode 0 [-1])` is
`[1, 1]`, not `[-1]` — the delta layer inherits the decoder's broken
sign handling. -/
theorem delta_roundtrip_neg_one_fails :
    DeltaDecode 0 (DeltaEncode 0 [-1]) = [1, 1] ∧ ([1, 1] : List Int) ≠ [-1] := by
  constructor
  · rw [DeltaDecode_eq]
    decide
  · decide

/-- C8: feeding the decoder its bytes one at a time across successive
`Read` calls, decoder state persisting between calls, yields exactly the
same decoded sequence as a single `Read` with a buffer larger than the
stream could ever fill. -/
theorem decode_resumable_one_byte (bytes : List Nat) :
    feedOneByOne NewExpGolombDecoder bytes =
      (ReadLoop NewExpGolombDecoder bytes (8 * bytes.length + 2) []).2.2.1 := by
  rw [feedOneByOne_eq bytes NewExpGolombDecoder rfl]
  simp [residValues, NewExpGolombDecoder]

/-- C9: source exhaustion is terminal but not fatal — `DeltaDecode`
returns exactly the running sums of the residuals fully decoded before
exhaustion (no partial value), and a `Read` may legitimately decode zero
values at exhaustion (here: a byte of zeros, mid zero-run) while the
partial-codeword state (`zeros = 8`) is preserved in the returned
decoder. -/
theorem exhaustion_is_terminal (base : Int) (bytes : List Nat) :
    DeltaDecode base bytes = runningSums base (residValues NewExpGolombDecoder bytes) ∧
    ReadLoop NewExpGolombDecoder [0] 5 [] =
      ({ b := 0, state := COUNTING_ZEROS, val := 0, zeros := 8, nBits := 0 }, [], [],
        true) :=
  ⟨DeltaDecode_eq base bytes, by decide⟩

end DeltaGolomb
